import Mathlib

/-!
Verification of the chatlog v4 key-extraction core: a shallow embedding of
internal/wechat/key/darwin/v4.go (V4Extractor: SearchKey, SearchImgKey,
SearchAllDerivedKeys, the Extract result aggregation) and of the decrypt
Validator (ValidateDerivedKey, AllDerivedKeysFound).

Bytes are modelled as Nat, memory chunks as List Nat, Go sync.Map string sets
as List String (insertion order), the sync.Map of matched DB indices as
List Int.  The cancellation context is a constant Bool (the claims only speak
about a context that is cancelled before the call, or never cancelled).
Concurrency is modelled as sequential interleaving of the atomic steps
(sync.Map LoadOrStore is an atomic check-and-set).  The cryptographic
page-authentication primitives live in code outside this repository slice, so
a decryptor is a record of abstract boolean oracles; every theorem below is
about the dispatch and search logic, quantified over those oracles.
-/

/-- Lowercase hex digit for a nibble, as in Go encoding/hex. -/
def hexChar (n : Nat) : Char :=
  if n < 10 then Char.ofNat (48 + n) else Char.ofNat (87 + n)

/-- Lowercase hex encoding of a byte list, as in Go hex.EncodeToString. -/
def hexEncode (bs : List Nat) : String :=
  String.mk (List.flatten (bs.map (fun b => [hexChar (b / 16 % 16), hexChar (b % 16)])))

/-- Number of zero bytes in a list (the zeroCount loop in SearchAllDerivedKeys). -/
def countZeros : List Nat → Nat
  | [] => 0
  | b :: rest => (if b = 0 then 1 else 0) + countZeros rest

/-- Whether a byte list contains two consecutive zero bytes, as in
Go bytes.Contains(s, []byte{0x00, 0x00}). -/
def hasZZ : List Nat → Bool
  | 0 :: 0 :: _ => true
  | _ :: rest => hasZZ rest
  | [] => false

/-- A 16-byte run of zero bytes (the zero pattern of V4KeyPatterns). -/
def zeros16 : List Nat := List.replicate 16 0

/-- Go bytes.LastIndex: index of the last occurrence of pat as a contiguous
sublist of s, or none. -/
def lastIndexOf (s pat : List Nat) : Option Nat :=
  ((List.range (s.length + 1)).filter
    (fun i => i + pat.length ≤ s.length && (s.drop i).take pat.length == pat)).getLast?

/-- Go bytes.LastIndexFunc(s, fun r => r ≠ 0): index of the last non-zero
byte of s, or none.  (UTF-8 rune decoding of non-ASCII bytes is approximated
byte-wise; no claim below depends on the rune boundaries.) -/
def lastIndexNonZero (s : List Nat) : Option Nat :=
  ((List.range s.length).filter (fun i => !(s.getD i 0 == 0))).getLast?

/-- A raw/img key search pattern descriptor (type KeyPatternInfo in v4.go). -/
structure KeyPatternInfo where
  Pattern : List Nat
  Offsets : List Int
deriving Repr

/-- V4KeyPatterns from v4.go: the FTS5 marker pattern and the 16-zero pattern. -/
def V4KeyPatterns : List KeyPatternInfo :=
  [ { Pattern := [0x20, 0x66, 0x74, 0x73, 0x35, 0x28, 0x25, 0x00],
      Offsets := [16, -80, 64] },
    { Pattern := zeros16, Offsets := [-32] } ]

/-- V4DerivedKeyPatterns from v4.go (the AXTM marker). -/
def V4DerivedKeyPatterns : List KeyPatternInfo :=
  [ { Pattern := [0x41, 0x58, 0x54, 0x4d, 0x00, 0x00, 0x00, 0x00],
      Offsets := [-32] } ]

/-- V4ImgKeyPatterns from v4.go. -/
def V4ImgKeyPatterns : List KeyPatternInfo :=
  [ { Pattern := zeros16, Offsets := [-32] } ]

/-- A decryptor, abstracted over the page cryptography (which lives outside
this repository slice).  validate is Decryptor.Validate(page, key);
validateDerivedKey is some f exactly when the decryptor implements the
derivedKeyValidator interface asserted in Validator.ValidateDerivedKey. -/
structure Decryptor where
  validate : List Nat → List Nat → Bool
  validateDerivedKey : Option (List Nat → List Nat → Bool)

/-- The decrypt.Validator state: primary DB first page, extra DB first pages,
optional image-key oracle, matched index set (-1 = primary, 0.. = extras),
matched count and total DB count. -/
structure Validator where
  decryptor : Decryptor
  dbFilePage : List Nat
  extraDBPages : List (List Nat)
  imgValidate : Option (List Nat → Bool)
  matchedDBs : List Int
  matchedCount : Int
  totalDBCount : Nat

/-- The sync.Map LoadOrStore plus conditional atomic increment performed on a
successful derived-key match, modelled sequentially. -/
def Validator.markMatched (v : Validator) (i : Int) : Validator :=
  if v.matchedDBs.contains i then v
  else { v with matchedDBs := i :: v.matchedDBs, matchedCount := v.matchedCount + 1 }

/-- The extra-database loop of Validator.ValidateDerivedKey: try each extra DB
page in order starting at index j, skipping already-matched indices. -/
def validateExtraLoop (dv : List Nat → List Nat → Bool) (v : Validator)
    (key : List Nat) : List (List Nat) → Int → Bool × Validator
  | [], _ => (false, v)
  | page :: rest, j =>
    if v.matchedDBs.contains j then validateExtraLoop dv v key rest (j + 1)
    else if dv page key then (true, v.markMatched j)
    else validateExtraLoop dv v key rest (j + 1)

/-- Validator.ValidateDerivedKey from the decrypt package: interface assertion,
then primary DB (index -1) if unmatched, then the extra DBs in order. -/
def Validator.ValidateDerivedKey (v : Validator) (key : List Nat) : Bool × Validator :=
  match v.decryptor.validateDerivedKey with
  | none => (false, v)
  | some dv =>
    if !(v.matchedDBs.contains (-1)) && dv v.dbFilePage key then
      (true, v.markMatched (-1))
    else
      validateExtraLoop dv v key v.extraDBPages 0

/-- Validator.AllDerivedKeysFound: totalDBCount > 0 and matchedCount has
reached totalDBCount. -/
def Validator.AllDerivedKeysFound (v : Validator) : Bool :=
  decide (0 < v.totalDBCount) && decide ((v.totalDBCount : Int) ≤ v.matchedCount)

/-- Validator.Validate (raw key): delegate to the decryptor on the primary
first page only. -/
def Validator.Validate (v : Validator) (key : List Nat) : Bool :=
  v.decryptor.validate v.dbFilePage key

/-- Validator.ValidateImgKey: delegate to the image-key validator when set. -/
def Validator.ValidateImgKey (v : Validator) (key : List Nat) : Bool :=
  match v.imgValidate with
  | none => false
  | some f => f key

/-- Index-tagged listing starting at index i (used to phrase the spec order of
database candidates). -/
def indexedFrom (i : Int) : List (List Nat) → List (Int × List Nat)
  | [] => []
  | a :: as => (i, a) :: indexedFrom (i + 1) as

/-- The database candidates in spec order: primary first under index -1, then
each extra database file in order under indices 0, 1, .... -/
def candidateDBs (v : Validator) : List (Int × List Nat) :=
  (-1, v.dbFilePage) :: indexedFrom 0 v.extraDBPages

/-- Spec-side description of ValidateDerivedKey (written from the spec's
words): find the first unmatched database, in primary-then-extras order, whose
page authenticates the key; mark it matched, increment matchedCount once, and
return true; return false when no unmatched database authenticates. -/
def ValidateDerivedKeySpec (v : Validator) (key : List Nat) : Bool × Validator :=
  match v.decryptor.validateDerivedKey with
  | none => (false, v)
  | some dv =>
    match (candidateDBs v).find? (fun p => !(v.matchedDBs.contains p.1) && dv p.2 key) with
    | some p => (true, { v with matchedDBs := p.1 :: v.matchedDBs,
                                matchedCount := v.matchedCount + 1 })
    | none => (false, v)

/-- Validator states reachable from construction by ValidateDerivedKey calls.
The v4 constructor loads the primary plus the extra DB files and sets
totalDBCount = extras + 1; a non-v4 constructor loads no extras, leaves
totalDBCount = 0, and its decryptor does not implement the derived-key
interface. -/
inductive Validator.Reachable : Validator → Prop
  | init (d : Decryptor) (page : List Nat) (extras : List (List Nat))
      (img : Option (List Nat → Bool)) :
      Validator.Reachable ⟨d, page, extras, img, [], 0, extras.length + 1⟩
  | initNonV4 (d : Decryptor) (page : List Nat) (img : Option (List Nat → Bool))
      (hd : d.validateDerivedKey = none) :
      Validator.Reachable ⟨d, page, [], img, [], 0, 0⟩
  | step (v : Validator) (key : List Nat) : Validator.Reachable v →
      Validator.Reachable (v.ValidateDerivedKey key).2

-- Helper lemmas about the extra-DB loop.

/-- The extra-DB loop either leaves the validator unchanged (returning false)
or returns true having marked exactly one previously-unmatched index in range. -/
theorem validateExtraLoop_eq_find (dv : List Nat → List Nat → Bool) (v : Validator)
    (key : List Nat) (pages : List (List Nat)) (j : Int) :
    validateExtraLoop dv v key pages j =
      match (indexedFrom j pages).find? (fun p => !(v.matchedDBs.contains p.1) && dv p.2 key) with
      | some p => (true, { v with matchedDBs := p.1 :: v.matchedDBs,
                                  matchedCount := v.matchedCount + 1 })
      | none => (false, v) := by
  induction pages generalizing j with
  | nil => simp [validateExtraLoop, indexedFrom]
  | cons page rest ih =>
    simp only [validateExtraLoop, indexedFrom, List.find?]
    by_cases hm : j ∈ v.matchedDBs
    · simp [hm, ih]
    · by_cases hv : dv page key
      · simp [hm, hv, Validator.markMatched]
      · simp [hm, hv, ih]

/-- ValidateDerivedKey agrees with its spec-side description. -/
theorem validateDerivedKey_eq_spec_general (v : Validator) (key : List Nat) :
    v.ValidateDerivedKey key = ValidateDerivedKeySpec v key := by
  unfold Validator.ValidateDerivedKey ValidateDerivedKeySpec
  cases hdk : v.decryptor.validateDerivedKey with
  | none => rfl
  | some dv =>
    simp only [candidateDBs, List.find?]
    by_cases hm : (-1 : Int) ∈ v.matchedDBs
    · simp [hm, validateExtraLoop_eq_find]
    · by_cases hv : dv v.dbFilePage key
      · simp [hm, hv, Validator.markMatched]
      · simp [hm, hv, validateExtraLoop_eq_find]

/-- A nodup list of integers in the window [-1, n) has at most n + 1 elements. -/
theorem nodup_int_window_length {l : List Int} {n : Nat} (hnd : l.Nodup)
    (hb : ∀ i ∈ l, -1 ≤ i ∧ i < (n : Int)) : l.length ≤ n + 1 := by
  have hsub : l.toFinset ⊆ Finset.Icc (-1 : Int) ((n : Int) - 1) := by
    intro i hi
    rw [List.mem_toFinset] at hi
    rcases hb i hi with ⟨h1, h2⟩
    rw [Finset.mem_Icc]
    omega
  have hcard := Finset.card_le_card hsub
  rw [List.toFinset_card_of_nodup hnd, Int.card_Icc] at hcard
  omega

/-- The state invariant maintained by ValidateDerivedKey: matched indices are
distinct and in range, matchedCount counts them, and totalDBCount is either
extras + 1 (v4 construction) or 0 with no derived-key interface (non-v4). -/
def ValidatorInv (v : Validator) : Prop :=
  v.matchedDBs.Nodup ∧
  (∀ i ∈ v.matchedDBs, -1 ≤ i ∧ i < (v.extraDBPages.length : Int)) ∧
  v.matchedCount = v.matchedDBs.length ∧
  (v.totalDBCount = v.extraDBPages.length + 1 ∨
    (v.totalDBCount = 0 ∧ v.decryptor.validateDerivedKey = none ∧ v.matchedDBs = []))

/-- Bounds of the index tags produced by indexedFrom. -/
theorem indexedFrom_fst_bounds {p : Int × List Nat} :
    ∀ (l : List (List Nat)) (j : Int), p ∈ indexedFrom j l →
      j ≤ p.1 ∧ p.1 < j + l.length := by
  intro l
  induction l with
  | nil => intro j h; simp [indexedFrom] at h
  | cons a as ih =>
    intro j h
    rcases List.mem_cons.mp h with h | h
    · subst h; simp
    · have := ih (j + 1) h
      simp only [List.length_cons]
      push_cast
      omega

/-- One ValidateDerivedKey call preserves the validator invariant. -/
theorem validateDerivedKey_preserves_inv (v : Validator) (key : List Nat)
    (h : ValidatorInv v) : ValidatorInv (v.ValidateDerivedKey key).2 := by
  rw [validateDerivedKey_eq_spec_general]
  unfold ValidateDerivedKeySpec
  cases hdk : v.decryptor.validateDerivedKey with
  | none => exact h
  | some dv =>
    dsimp only
    cases hf : (candidateDBs v).find? (fun p => !(v.matchedDBs.contains p.1) && dv p.2 key) with
    | none => exact h
    | some p =>
      dsimp only
      obtain ⟨hnd, hb, hc, ht⟩ := h
      have hmem := List.mem_of_find?_eq_some hf
      have hpred := List.find?_some hf
      have hnotin : p.1 ∉ v.matchedDBs := by
        simp only [Bool.and_eq_true, Bool.not_eq_true'] at hpred
        intro hin
        have : v.matchedDBs.contains p.1 = true := List.elem_eq_true_of_mem hin
        rw [hpred.1] at this
        exact Bool.false_ne_true this
      have hrange : -1 ≤ p.1 ∧ p.1 < (v.extraDBPages.length : Int) := by
        rcases List.mem_cons.mp hmem with h | h
        · have : p.1 = -1 := by rw [h]
          constructor
          · omega
          · have : (0 : Int) ≤ (v.extraDBPages.length : Int) := Int.ofNat_nonneg _
            omega
        · have := indexedFrom_fst_bounds v.extraDBPages 0 h
          omega
      refine ⟨?_, ?_, ?_, ?_⟩
      · exact List.nodup_cons.mpr ⟨hnotin, hnd⟩
      · intro i hi
        rcases List.mem_cons.mp hi with h | h
        · subst h; exact hrange
        · exact hb i h
      · simp only [List.length_cons]
        push_cast
        omega
      · rcases ht with h1 | ⟨_, hnone, _⟩
        · exact Or.inl h1
        · rw [hnone] at hdk; exact absurd hdk (by simp)

/-- C2: ValidateDerivedKey(key) tests the primary first page first (index -1),
then each extra database file in order, skipping any index already matched; on
the first page that authenticates it marks that index matched, increments
matchedCount exactly once for that index (the atomic check-and-set, modelled
sequentially), and returns true; it returns false if no unmatched database
authenticates the key. -/
theorem validateDerivedKey_eq_spec (v : Validator) (key : List Nat) :
    v.ValidateDerivedKey key = ValidateDerivedKeySpec v key :=
  validateDerivedKey_eq_spec_general v key

/-- C3: in every reachable Validator state, matchedCount does not exceed
totalDBCount, and AllDerivedKeysFound returns true exactly when totalDBCount
is positive and matchedCount equals totalDBCount. -/
theorem validator_reachable_invariant (v : Validator) (h : v.Reachable) :
    v.matchedCount ≤ (v.totalDBCount : Int) ∧
      (v.AllDerivedKeysFound = true ↔
        0 < v.totalDBCount ∧ v.matchedCount = (v.totalDBCount : Int)) := by
  have hinv : ValidatorInv v := by
    induction h with
    | init d page extras img => exact ⟨by simp, by simp, by simp, Or.inl rfl⟩
    | initNonV4 d page img hd => exact ⟨by simp, by simp, by simp, Or.inr ⟨rfl, hd, rfl⟩⟩
    | step v key hr ih => exact validateDerivedKey_preserves_inv v key ih
  obtain ⟨hnd, hb, hc, ht⟩ := hinv
  have hle : v.matchedCount ≤ (v.totalDBCount : Int) := by
    rcases ht with h1 | ⟨h0, _, hemp⟩
    · have := nodup_int_window_length hnd hb
      omega
    · rw [hemp] at hc
      simp at hc
      omega
  refine ⟨hle, ?_⟩
  unfold Validator.AllDerivedKeysFound
  simp only [Bool.and_eq_true, decide_eq_true_eq]
  omega

/-- A sample decryptor whose derived-key oracle accepts everything. -/
def decryptorC3 : Decryptor := ⟨fun _ _ => false, some (fun _ _ => true)⟩

/-- A freshly constructed validator over one (empty) primary page. -/
def validatorC3 : Validator := ⟨decryptorC3, [], [], none, [], 0, 1⟩

/-- Witness for C3 at the initial state of a concrete validator. -/
theorem validator_reachable_invariant_witness :
    validatorC3.matchedCount ≤ (validatorC3.totalDBCount : Int) ∧
      (validatorC3.AllDerivedKeysFound = true ↔
        0 < validatorC3.totalDBCount ∧ validatorC3.matchedCount = (validatorC3.totalDBCount : Int)) :=
  validator_reachable_invariant validatorC3 (Validator.Reachable.init decryptorC3 [] [] none)

/-- C10: when the decryptor does not implement the derived-key validation
interface, ValidateDerivedKey returns false for every key and leaves the whole
validator state (in particular matchedDBs and matchedCount) unchanged. -/
theorem validateDerivedKey_without_interface_false (v : Validator) (key : List Nat)
    (h : v.decryptor.validateDerivedKey = none) :
    v.ValidateDerivedKey key = (false, v) := by
  unfold Validator.ValidateDerivedKey
  rw [h]

/-- A sample decryptor without the derived-key interface (a v3 profile). -/
def decryptorC10 : Decryptor := ⟨fun _ _ => true, none⟩

/-- A validator wrapping the interface-less decryptor. -/
def validatorC10 : Validator := ⟨decryptorC10, [1, 2], [], none, [], 0, 1⟩

/-- Witness for C10 at a concrete validator and key. -/
theorem validateDerivedKey_without_interface_false_witness :
    validatorC10.ValidateDerivedKey [5, 6] = (false, validatorC10) :=
  validateDerivedKey_without_interface_false validatorC10 [5, 6] rfl

/-- The V4Extractor state: the shared validator, the pattern tables installed
by NewV4Extractor, the three processed-candidate dedup sets and the set of
validated derived keys (sync.Map string sets modelled as lists in insertion
order).  The validator is an argument (Go installs it via SetValidate). -/
structure V4Extractor where
  validator : Validator
  dataKeyPatterns : List KeyPatternInfo
  derivedKeyPatterns : List KeyPatternInfo
  imgKeyPatterns : List KeyPatternInfo
  processedDataKeys : List String
  processedDerivedKeys : List String
  processedImgKeys : List String
  foundDerivedKeys : List String

/-- NewV4Extractor: installs the v4 pattern tables over a validator. -/
def NewV4Extractor (v : Validator) : V4Extractor :=
  ⟨v, V4KeyPatterns, V4DerivedKeyPatterns, V4ImgKeyPatterns, [], [], [], []⟩

/-- The 32-byte candidate window of a chunk at a byte offset
(memory[pos : pos+32] in Go). -/
def window32 (memory : List Nat) (pos : Nat) : List Nat :=
  (memory.drop pos).take 32

/-- Lines 418-425 of v4.go on a fresh candidate: store its hex in
processedDerivedKeys (the LoadOrStore store case) and validate it against the
shared validator, whose state the call may advance. -/
def recordAndValidate (e : V4Extractor) (keyData : List Nat) : Bool × V4Extractor :=
  ((e.validator.ValidateDerivedKey keyData).1,
   { e with processedDerivedKeys := e.processedDerivedKeys ++ [hexEncode keyData],
            validator := (e.validator.ValidateDerivedKey keyData).2 })

/-- Line 425 of v4.go: store a validated derived key hex in foundDerivedKeys. -/
def storeFound (e : V4Extractor) (h : String) : V4Extractor :=
  { e with foundDerivedKeys := e.foundDerivedKeys ++ [h] }

/-- The scanning loop of SearchAllDerivedKeys: positions stepped by 8, window
32 bytes, an 8 KiB checkpoint polling cancellation and AllDerivedKeysFound,
the more-than-24-zero-bytes filter, the processedDerivedKeys dedup, then
validation.  The third component is the ghost trace of candidates passed to
ValidateDerivedKey.  Fuel is structural recursion fuel; the caller passes
memory.length + 1, which strictly exceeds the number of iterations. -/
def sadkLoop (cancelled : Bool) (memory : List Nat) :
    Nat → Nat → Nat → V4Extractor → List (List Nat) → Nat × V4Extractor × List (List Nat)
  | 0, _, count, e, trace => (count, e, trace)
  | fuel + 1, pos, count, e, trace =>
    if pos + 32 ≤ memory.length then
      if pos % 8192 == 0 && cancelled then (count, e, trace)
      else if pos % 8192 == 0 && e.validator.AllDerivedKeysFound then (count, e, trace)
      else if 24 < countZeros (window32 memory pos) then
        sadkLoop cancelled memory fuel (pos + 8) count e trace
      else if e.processedDerivedKeys.contains (hexEncode (window32 memory pos)) then
        sadkLoop cancelled memory fuel (pos + 8) count e trace
      else if (recordAndValidate e (window32 memory pos)).1 then
        sadkLoop cancelled memory fuel (pos + 8) (count + 1)
          (storeFound (recordAndValidate e (window32 memory pos)).2 (hexEncode (window32 memory pos)))
          (trace ++ [window32 memory pos])
      else
        sadkLoop cancelled memory fuel (pos + 8) count
          (recordAndValidate e (window32 memory pos)).2 (trace ++ [window32 memory pos])
    else (count, e, trace)

/-- SearchAllDerivedKeys of v4.go (instrumented with the validation trace):
chunks shorter than 32 bytes produce nothing; otherwise the stride-8 loop runs
from position 0. -/
def SearchAllDerivedKeysT (cancelled : Bool) (e : V4Extractor) (memory : List Nat) :
    Nat × V4Extractor × List (List Nat) :=
  if memory.length < 32 then (0, e, [])
  else sadkLoop cancelled memory (memory.length + 1) 0 0 e []

/-- Spec-side scan (written from the spec's words): step through the chunk at
8-byte stride, window 32 bytes; skip windows with more than 24 zero bytes;
hex-encode and dedup via processedDerivedKeys; validate the rest through
ValidateDerivedKey and store successes in foundDerivedKeys — with no early
exit, so it examines every window that fits. -/
def derivedScanFrom (memory : List Nat) :
    Nat → Nat → Nat → V4Extractor → List (List Nat) → Nat × V4Extractor × List (List Nat)
  | 0, _, count, e, trace => (count, e, trace)
  | fuel + 1, pos, count, e, trace =>
    if pos + 32 ≤ memory.length then
      if 24 < countZeros (window32 memory pos) then
        derivedScanFrom memory fuel (pos + 8) count e trace
      else if e.processedDerivedKeys.contains (hexEncode (window32 memory pos)) then
        derivedScanFrom memory fuel (pos + 8) count e trace
      else if (recordAndValidate e (window32 memory pos)).1 then
        derivedScanFrom memory fuel (pos + 8) (count + 1)
          (storeFound (recordAndValidate e (window32 memory pos)).2 (hexEncode (window32 memory pos)))
          (trace ++ [window32 memory pos])
      else
        derivedScanFrom memory fuel (pos + 8) count
          (recordAndValidate e (window32 memory pos)).2 (trace ++ [window32 memory pos])
    else (count, e, trace)

/-- The complete checkpoint-free scan of a chunk, from position 0. -/
def derivedScanSpec (e : V4Extractor) (memory : List Nat) :
    Nat × V4Extractor × List (List Nat) :=
  derivedScanFrom memory (memory.length + 1) 0 0 e []

/-- ValidateDerivedKey leaves the validator unchanged or marks one index. -/
theorem validateDerivedKey_snd_cases (v : Validator) (key : List Nat) :
    (v.ValidateDerivedKey key).2 = v ∨
    ∃ i, (v.ValidateDerivedKey key).2 =
      { v with matchedDBs := i :: v.matchedDBs, matchedCount := v.matchedCount + 1 } := by
  rw [validateDerivedKey_eq_spec_general]
  unfold ValidateDerivedKeySpec
  cases v.decryptor.validateDerivedKey with
  | none => exact Or.inl rfl
  | some dv =>
    dsimp only
    cases (candidateDBs v).find? (fun p => !(v.matchedDBs.contains p.1) && dv p.2 key) with
    | none => exact Or.inl rfl
    | some p => exact Or.inr ⟨p.1, rfl⟩

/-- ValidateDerivedKey does not change totalDBCount. -/
theorem validateDerivedKey_total_eq (v : Validator) (key : List Nat) :
    (v.ValidateDerivedKey key).2.totalDBCount = v.totalDBCount := by
  rcases validateDerivedKey_snd_cases v key with h | ⟨i, h⟩
  · rw [h]
  · rw [h]

/-- ValidateDerivedKey never decreases matchedCount. -/
theorem validateDerivedKey_count_mono (v : Validator) (key : List Nat) :
    v.matchedCount ≤ (v.ValidateDerivedKey key).2.matchedCount := by
  rcases validateDerivedKey_snd_cases v key with h | ⟨i, h⟩
  · rw [h]
  · rw [h]
    simp

/-- AllDerivedKeysFound is stable under further ValidateDerivedKey calls. -/
theorem validateDerivedKey_allFound_mono (v : Validator) (key : List Nat)
    (h : v.AllDerivedKeysFound = true) :
    (v.ValidateDerivedKey key).2.AllDerivedKeysFound = true := by
  have h1 := validateDerivedKey_total_eq v key
  have h2 := validateDerivedKey_count_mono v key
  unfold Validator.AllDerivedKeysFound at h ⊢
  simp only [Bool.and_eq_true, decide_eq_true_eq] at h ⊢
  rw [h1]
  omega

/-- AllDerivedKeysFound is stable along the checkpoint-free scan. -/
theorem derivedScanFrom_allFound_mono (memory : List Nat) :
    ∀ fuel pos count e trace, e.validator.AllDerivedKeysFound = true →
      (derivedScanFrom memory fuel pos count e trace).2.1.validator.AllDerivedKeysFound = true := by
  intro fuel
  induction fuel with
  | zero => intro pos count e trace h; exact h
  | succ fuel ih =>
    intro pos count e trace h
    unfold derivedScanFrom
    by_cases hg : pos + 32 ≤ memory.length
    · rw [if_pos hg]
      by_cases hz : 24 < countZeros (window32 memory pos)
      · rw [if_pos hz]; exact ih _ _ _ _ h
      · rw [if_neg hz]
        by_cases hp : e.processedDerivedKeys.contains (hexEncode (window32 memory pos))
        · rw [if_pos hp]; exact ih _ _ _ _ h
        · rw [if_neg hp]
          have hval : ((recordAndValidate e (window32 memory pos)).2).validator.AllDerivedKeysFound = true :=
            validateDerivedKey_allFound_mono e.validator (window32 memory pos) h
          by_cases hr : (recordAndValidate e (window32 memory pos)).1
          · rw [if_pos hr]; exact ih _ _ _ _ hval
          · rw [if_neg hr]; exact ih _ _ _ _ hval
    · rw [if_neg hg]; exact h

/-- Membership in a set is kept when the list grows on the right. -/
theorem contains_append_of_contains (l l2 : List String) (h : String)
    (hc : l.contains h = true) : (l ++ l2).contains h = true :=
  List.elem_eq_true_of_mem (List.mem_append_left l2 (List.mem_of_elem_eq_true hc))

/-- A freshly appended element is in the set. -/
theorem contains_append_self (l : List String) (h : String) :
    (l ++ [h]).contains h = true :=
  List.elem_eq_true_of_mem (List.mem_append_right l (List.mem_singleton.mpr rfl))

/-- The loop returns immediately once the window no longer fits. -/
theorem sadkLoop_exit_guard (cancelled : Bool) (memory : List Nat)
    (fuel pos count : Nat) (e : V4Extractor) (trace : List (List Nat))
    (hg : memory.length < pos + 32) :
    sadkLoop cancelled memory fuel pos count e trace = (count, e, trace) := by
  cases fuel with
  | zero => rfl
  | succ fuel => unfold sadkLoop; rw [if_neg (by omega)]

/-- At an 8 KiB checkpoint with all derived keys found, the non-cancelled loop
returns immediately. -/
theorem sadkLoop_exit_allFound (memory : List Nat) (fuel pos count : Nat)
    (e : V4Extractor) (trace : List (List Nat)) (hg : pos + 32 ≤ memory.length)
    (hm : pos % 8192 = 0) (hA : e.validator.AllDerivedKeysFound = true) :
    sadkLoop false memory (fuel + 1) pos count e trace = (count, e, trace) := by
  unfold sadkLoop
  rw [if_pos hg]
  simp [hm, hA]

/-- One non-exiting step of the non-cancelled loop: when the current position
is not an all-found checkpoint, the loop body matches the checkpoint-free scan
body. -/
theorem sadkLoop_false_step (memory : List Nat) (fuel pos count : Nat)
    (e : V4Extractor) (trace : List (List Nat)) (hg : pos + 32 ≤ memory.length)
    (hdisj : e.validator.AllDerivedKeysFound = false ∨ pos % 8192 ≠ 0) :
    sadkLoop false memory (fuel + 1) pos count e trace =
      if 24 < countZeros (window32 memory pos) then
        sadkLoop false memory fuel (pos + 8) count e trace
      else if e.processedDerivedKeys.contains (hexEncode (window32 memory pos)) then
        sadkLoop false memory fuel (pos + 8) count e trace
      else if (recordAndValidate e (window32 memory pos)).1 then
        sadkLoop false memory fuel (pos + 8) (count + 1)
          (storeFound (recordAndValidate e (window32 memory pos)).2 (hexEncode (window32 memory pos)))
          (trace ++ [window32 memory pos])
      else
        sadkLoop false memory fuel (pos + 8) count
          (recordAndValidate e (window32 memory pos)).2 (trace ++ [window32 memory pos]) := by
  rcases hdisj with hA | hm
  · simp only [sadkLoop]
    rw [if_pos hg]
    simp [hA]
  · simp only [sadkLoop]
    rw [if_pos hg]
    simp [hm]

/-- The same step shape for the checkpoint-free scan. -/
theorem derivedScanFrom_step (memory : List Nat) (fuel pos count : Nat)
    (e : V4Extractor) (trace : List (List Nat)) (hg : pos + 32 ≤ memory.length) :
    derivedScanFrom memory (fuel + 1) pos count e trace =
      if 24 < countZeros (window32 memory pos) then
        derivedScanFrom memory fuel (pos + 8) count e trace
      else if e.processedDerivedKeys.contains (hexEncode (window32 memory pos)) then
        derivedScanFrom memory fuel (pos + 8) count e trace
      else if (recordAndValidate e (window32 memory pos)).1 then
        derivedScanFrom memory fuel (pos + 8) (count + 1)
          (storeFound (recordAndValidate e (window32 memory pos)).2 (hexEncode (window32 memory pos)))
          (trace ++ [window32 memory pos])
      else
        derivedScanFrom memory fuel (pos + 8) count
          (recordAndValidate e (window32 memory pos)).2 (trace ++ [window32 memory pos]) := by
  simp only [derivedScanFrom]
  rw [if_pos hg]

/-- The scan returns immediately once the window no longer fits. -/
theorem derivedScanFrom_exit_guard (memory : List Nat) (fuel pos count : Nat)
    (e : V4Extractor) (trace : List (List Nat)) (hg : memory.length < pos + 32) :
    derivedScanFrom memory fuel pos count e trace = (count, e, trace) := by
  cases fuel with
  | zero => rfl
  | succ fuel => unfold derivedScanFrom; rw [if_neg (by omega)]

/-- Entries of processedDerivedKeys survive the scanning loop. -/
theorem sadkLoop_processed_mono (cancelled : Bool) (memory : List Nat) :
    ∀ fuel pos count (e : V4Extractor) trace (h : String),
      e.processedDerivedKeys.contains h = true →
      (sadkLoop cancelled memory fuel pos count e trace).2.1.processedDerivedKeys.contains h = true := by
  intro fuel
  induction fuel with
  | zero => intro pos count e trace h hc; exact hc
  | succ fuel ih =>
    intro pos count e trace h hc
    by_cases hg : pos + 32 ≤ memory.length
    · unfold sadkLoop
      rw [if_pos hg]
      by_cases hcan : (pos % 8192 == 0 && cancelled) = true
      · rw [if_pos hcan]; exact hc
      · rw [if_neg hcan]
        by_cases hall : (pos % 8192 == 0 && e.validator.AllDerivedKeysFound) = true
        · rw [if_pos hall]; exact hc
        · rw [if_neg hall]
          by_cases hz : 24 < countZeros (window32 memory pos)
          · rw [if_pos hz]; exact ih _ _ _ _ _ hc
          · rw [if_neg hz]
            by_cases hp : e.processedDerivedKeys.contains (hexEncode (window32 memory pos)) = true
            · rw [if_pos hp]; exact ih _ _ _ _ _ hc
            · rw [if_neg hp]
              have hc2 : ((recordAndValidate e (window32 memory pos)).2).processedDerivedKeys.contains h = true := by
                unfold recordAndValidate
                exact contains_append_of_contains _ _ _ hc
              by_cases hr : (recordAndValidate e (window32 memory pos)).1 = true
              · rw [if_pos hr]
                exact ih _ _ _ _ _ hc2
              · rw [if_neg hr]; exact ih _ _ _ _ _ hc2
    · rw [sadkLoop_exit_guard cancelled memory (fuel + 1) pos count e trace (by omega)]
      exact hc

/-- With no cancellation, the loop computes the checkpoint-free scan whenever
the scan does not end with all derived keys found (by monotonicity the
all-found checkpoints then never fire). -/
theorem sadkLoop_eq_scan (memory : List Nat) :
    ∀ fuel pos count (e : V4Extractor) trace,
      (derivedScanFrom memory fuel pos count e trace).2.1.validator.AllDerivedKeysFound = false →
      sadkLoop false memory fuel pos count e trace = derivedScanFrom memory fuel pos count e trace := by
  intro fuel
  induction fuel with
  | zero => intro pos count e trace h; rfl
  | succ fuel ih =>
    intro pos count e trace h
    by_cases hg : pos + 32 ≤ memory.length
    · have hAF : e.validator.AllDerivedKeysFound = false := by
        cases hx : e.validator.AllDerivedKeysFound with
        | false => rfl
        | true =>
          have hmono := derivedScanFrom_allFound_mono memory (fuel + 1) pos count e trace hx
          rw [h] at hmono
          exact Bool.noConfusion hmono
      rw [derivedScanFrom_step memory fuel pos count e trace hg] at h
      rw [sadkLoop_false_step memory fuel pos count e trace hg (Or.inl hAF),
        derivedScanFrom_step memory fuel pos count e trace hg]
      by_cases hz : 24 < countZeros (window32 memory pos)
      · rw [if_pos hz] at h
        rw [if_pos hz, if_pos hz]
        exact ih _ _ _ _ h
      · rw [if_neg hz] at h
        rw [if_neg hz, if_neg hz]
        by_cases hp : e.processedDerivedKeys.contains (hexEncode (window32 memory pos)) = true
        · rw [if_pos hp] at h
          rw [if_pos hp, if_pos hp]
          exact ih _ _ _ _ h
        · rw [if_neg hp] at h
          rw [if_neg hp, if_neg hp]
          by_cases hr : (recordAndValidate e (window32 memory pos)).1 = true
          · rw [if_pos hr] at h
            rw [if_pos hr, if_pos hr]
            exact ih _ _ _ _ h
          · rw [if_neg hr] at h
            rw [if_neg hr, if_neg hr]
            exact ih _ _ _ _ h
    · rw [sadkLoop_exit_guard false memory (fuel + 1) pos count e trace (by omega),
        derivedScanFrom_exit_guard memory (fuel + 1) pos count e trace (by omega)]

/-- After a completed non-cancelled run that does not end with all derived
keys found, every eligible window (stride-8 from pos, fitting, at most 24
zero bytes) has its hex in processedDerivedKeys of the result. -/
theorem sadkLoop_covers (memory : List Nat) :
    ∀ fuel pos count (e : V4Extractor) trace,
      memory.length ≤ pos + 8 * fuel + 24 →
      (sadkLoop false memory fuel pos count e trace).2.1.validator.AllDerivedKeysFound = false →
      ∀ k : Nat, pos + 8 * k + 32 ≤ memory.length →
        countZeros (window32 memory (pos + 8 * k)) ≤ 24 →
        (sadkLoop false memory fuel pos count e trace).2.1.processedDerivedKeys.contains
          (hexEncode (window32 memory (pos + 8 * k))) = true := by
  intro fuel
  induction fuel with
  | zero =>
    intro pos count e trace hf hall k hk hzk
    exfalso
    omega
  | succ fuel ih =>
    intro pos count e trace hf hall k hk hzk
    have hg : pos + 32 ≤ memory.length := by omega
    by_cases hA : e.validator.AllDerivedKeysFound = true ∧ pos % 8192 = 0
    · exfalso
      rw [sadkLoop_exit_allFound memory fuel pos count e trace hg hA.2 hA.1] at hall
      have hfalse : e.validator.AllDerivedKeysFound = false := hall
      rw [hA.1] at hfalse
      exact Bool.noConfusion hfalse
    · have hdisj : e.validator.AllDerivedKeysFound = false ∨ pos % 8192 ≠ 0 := by
        rcases not_and_or.mp hA with hx | hx
        · left
          cases hy : e.validator.AllDerivedKeysFound with
          | false => rfl
          | true => exact absurd hy hx
        · right; exact hx
      rw [sadkLoop_false_step memory fuel pos count e trace hg hdisj] at hall ⊢
      have hf8 : memory.length ≤ (pos + 8) + 8 * fuel + 24 := by omega
      by_cases hz : 24 < countZeros (window32 memory pos)
      · rw [if_pos hz] at hall ⊢
        cases k with
        | zero =>
          exfalso
          simp only [Nat.mul_zero, Nat.add_zero] at hzk
          omega
        | succ k =>
          have harith : pos + 8 * (k + 1) = (pos + 8) + 8 * k := by ring
          rw [harith] at hk hzk ⊢
          exact ih (pos + 8) count e trace hf8 hall k hk hzk
      · rw [if_neg hz] at hall ⊢
        by_cases hp : e.processedDerivedKeys.contains (hexEncode (window32 memory pos)) = true
        · rw [if_pos hp] at hall ⊢
          cases k with
          | zero =>
            simp only [Nat.mul_zero, Nat.add_zero]
            exact sadkLoop_processed_mono false memory fuel (pos + 8) count e trace _ hp
          | succ k =>
            have harith : pos + 8 * (k + 1) = (pos + 8) + 8 * k := by ring
            rw [harith] at hk hzk ⊢
            exact ih (pos + 8) count e trace hf8 hall k hk hzk
        · rw [if_neg hp] at hall ⊢
          by_cases hr : (recordAndValidate e (window32 memory pos)).1 = true
          · rw [if_pos hr] at hall ⊢
            cases k with
            | zero =>
              simp only [Nat.mul_zero, Nat.add_zero]
              refine sadkLoop_processed_mono false memory fuel (pos + 8) _ _ _ _ ?_
              show ((storeFound (recordAndValidate e (window32 memory pos)).2
                  (hexEncode (window32 memory pos))).processedDerivedKeys).contains
                  (hexEncode (window32 memory pos)) = true
              unfold storeFound recordAndValidate
              exact contains_append_self _ _
            | succ k =>
              have harith : pos + 8 * (k + 1) = (pos + 8) + 8 * k := by ring
              rw [harith] at hk hzk ⊢
              exact ih (pos + 8) _ _ _ hf8 hall k hk hzk
          · rw [if_neg hr] at hall ⊢
            cases k with
            | zero =>
              simp only [Nat.mul_zero, Nat.add_zero]
              refine sadkLoop_processed_mono false memory fuel (pos + 8) _ _ _ _ ?_
              show (((recordAndValidate e (window32 memory pos)).2).processedDerivedKeys).contains
                  (hexEncode (window32 memory pos)) = true
              unfold recordAndValidate
              exact contains_append_self _ _
            | succ k =>
              have harith : pos + 8 * (k + 1) = (pos + 8) + 8 * k := by ring
              rw [harith] at hk hzk ⊢
              exact ih (pos + 8) _ _ _ hf8 hall k hk hzk

/-- A non-cancelled run over a chunk whose eligible windows are all already in
processedDerivedKeys, starting from a state without all derived keys found,
changes nothing: it validates no candidate and returns the state unchanged. -/
theorem sadkLoop_noop (memory : List Nat) :
    ∀ fuel pos count (e : V4Extractor) trace,
      (∀ k : Nat, pos + 8 * k + 32 ≤ memory.length →
        countZeros (window32 memory (pos + 8 * k)) ≤ 24 →
        e.processedDerivedKeys.contains (hexEncode (window32 memory (pos + 8 * k))) = true) →
      e.validator.AllDerivedKeysFound = false →
      sadkLoop false memory fuel pos count e trace = (count, e, trace) := by
  intro fuel
  induction fuel with
  | zero => intro pos count e trace hcov hA; rfl
  | succ fuel ih =>
    intro pos count e trace hcov hA
    by_cases hg : pos + 32 ≤ memory.length
    · rw [sadkLoop_false_step memory fuel pos count e trace hg (Or.inl hA)]
      have hcov8 : ∀ k : Nat, (pos + 8) + 8 * k + 32 ≤ memory.length →
          countZeros (window32 memory ((pos + 8) + 8 * k)) ≤ 24 →
          e.processedDerivedKeys.contains (hexEncode (window32 memory ((pos + 8) + 8 * k))) = true := by
        intro k hk hzk
        have harith : pos + 8 * (k + 1) = (pos + 8) + 8 * k := by ring
        refine harith ▸ hcov (k + 1) (by omega) ?_
        rw [harith]
        exact hzk
      by_cases hz : 24 < countZeros (window32 memory pos)
      · rw [if_pos hz]
        exact ih (pos + 8) count e trace hcov8 hA
      · rw [if_neg hz]
        have hp : e.processedDerivedKeys.contains (hexEncode (window32 memory pos)) = true := by
          have := hcov 0 (by omega) (by simpa using Nat.le_of_not_lt hz)
          simpa using this
        rw [if_pos hp]
        exact ih (pos + 8) count e trace hcov8 hA
    · exact sadkLoop_exit_guard false memory (fuel + 1) pos count e trace (by omega)

/-- C7: when the context is already cancelled, SearchAllDerivedKeys returns
immediately with zero findings for every chunk and extractor state: the count
is 0, no candidate is passed to ValidateDerivedKey (empty trace), and the
extractor (in particular foundDerivedKeys) is unchanged — even when the chunk
contains a valid derived key. -/
theorem searchAllDerivedKeys_cancelled_noop (e : V4Extractor) (memory : List Nat) :
    SearchAllDerivedKeysT true e memory = (0, e, []) := by
  unfold SearchAllDerivedKeysT
  by_cases h : memory.length < 32
  · rw [if_pos h]
  · rw [if_neg h]
    unfold sadkLoop
    rw [if_pos (by omega)]
    simp

/-- A validator already reporting AllDerivedKeysFound (one DB, one match). -/
def validatorAllFound : Validator :=
  ⟨⟨fun _ _ => false, some (fun _ _ => true)⟩, [], [], none, [-1], 1, 1⟩

/-- A fresh extractor over the all-found validator. -/
def extractorAllFound : V4Extractor := NewV4Extractor validatorAllFound

/-- A 32-byte chunk of nonzero bytes (one eligible window at offset 0). -/
def chunk32ones : List Nat := List.replicate 32 1

/-- C4 counterexample: on a 32-byte chunk with a non-cancelled context, the
window at offset 0 is a multiple-of-8 fitting window with at most 24 zero
bytes whose hex is not in processedDerivedKeys, yet when the validator already
reports AllDerivedKeysFound the checkpoint at position 0 exits the scan and
the window is never passed to ValidateDerivedKey (empty trace), refuting the
claim as stated. -/
theorem searchAllDerivedKeys_allFound_counterexample :
    SearchAllDerivedKeysT false extractorAllFound chunk32ones = (0, extractorAllFound, []) ∧
    chunk32ones.length = 32 ∧
    countZeros (window32 chunk32ones 0) ≤ 24 ∧
    extractorAllFound.processedDerivedKeys.contains (hexEncode (window32 chunk32ones 0)) = false := by
  refine ⟨rfl, by decide, by decide, by decide⟩

/-- C4 (amended): for every chunk of length at least 32 and a non-cancelled
context, provided the scan does not reach the all-derived-keys-found state (so
no 8 KiB checkpoint fires), SearchAllDerivedKeys computes exactly the
checkpoint-free stride-8 scan: it examines the 32-byte windows at byte offsets
that are multiples of 8 and fit in the chunk, skips windows with more than 24
zero bytes, skips windows whose lowercase hex is already in
processedDerivedKeys, passes every remaining window to ValidateDerivedKey, and
stores each validated window as its hex string in foundDerivedKeys. -/
theorem searchAllDerivedKeys_eq_spec_scan (e : V4Extractor) (memory : List Nat)
    (hlen : 32 ≤ memory.length)
    (hAF : (derivedScanSpec e memory).2.1.validator.AllDerivedKeysFound = false) :
    SearchAllDerivedKeysT false e memory = derivedScanSpec e memory := by
  unfold derivedScanSpec at hAF ⊢
  unfold SearchAllDerivedKeysT
  rw [if_neg (by omega)]
  exact sadkLoop_eq_scan memory (memory.length + 1) 0 0 e [] hAF

/-- A validator that rejects every derived-key candidate. -/
def validatorNoMatch : Validator :=
  ⟨⟨fun _ _ => false, some (fun _ _ => false)⟩, [], [], none, [], 0, 1⟩

/-- A fresh extractor over the rejecting validator. -/
def extractorNoMatch : V4Extractor := NewV4Extractor validatorNoMatch

/-- Witness for the amended C4 on a concrete 32-byte chunk. -/
theorem searchAllDerivedKeys_eq_spec_scan_witness :
    32 ≤ chunk32ones.length ∧
      SearchAllDerivedKeysT false extractorNoMatch chunk32ones =
        derivedScanSpec extractorNoMatch chunk32ones :=
  ⟨by decide, searchAllDerivedKeys_eq_spec_scan extractorNoMatch chunk32ones (by decide) rfl⟩

/-- C8: SearchAllDerivedKeys is idempotent: a second run on the same chunk
with the extractor produced by the first run passes no candidate to
ValidateDerivedKey (empty trace), finds zero new keys, and leaves the whole
extractor state — in particular foundDerivedKeys — unchanged. -/
theorem searchAllDerivedKeys_idempotent (e : V4Extractor) (memory : List Nat) :
    SearchAllDerivedKeysT false ((SearchAllDerivedKeysT false e memory).2.1) memory =
      (0, (SearchAllDerivedKeysT false e memory).2.1, []) := by
  by_cases hlen : memory.length < 32
  · simp only [SearchAllDerivedKeysT, if_pos hlen]
  · have hgoal : ∀ e1 : V4Extractor,
        e1 = (sadkLoop false memory (memory.length + 1) 0 0 e []).2.1 →
        SearchAllDerivedKeysT false e1 memory = (0, e1, []) := by
      intro e1 he1
      unfold SearchAllDerivedKeysT
      rw [if_neg hlen]
      by_cases hA : e1.validator.AllDerivedKeysFound = true
      · exact sadkLoop_exit_allFound memory memory.length 0 0 e1 [] (by omega) (by simp) hA
      · have hAf : e1.validator.AllDerivedKeysFound = false := by
          cases hx : e1.validator.AllDerivedKeysFound with
          | false => rfl
          | true => exact absurd hx hA
        have hAfs : (sadkLoop false memory (memory.length + 1) 0 0 e []).2.1.validator.AllDerivedKeysFound = false :=
          he1 ▸ hAf
        have hcov : ∀ k : Nat, 0 + 8 * k + 32 ≤ memory.length →
            countZeros (window32 memory (0 + 8 * k)) ≤ 24 →
            e1.processedDerivedKeys.contains (hexEncode (window32 memory (0 + 8 * k))) = true := by
          intro k hk hzk
          rw [he1]
          exact sadkLoop_covers memory (memory.length + 1) 0 0 e [] (by omega) hAfs k hk hzk
        exact sadkLoop_noop memory (memory.length + 1) 0 0 e1 [] hcov hAf
    have he1 : (SearchAllDerivedKeysT false e memory).2.1 =
        (sadkLoop false memory (memory.length + 1) 0 0 e []).2.1 := by
      unfold SearchAllDerivedKeysT
      rw [if_neg hlen]
    exact hgoal _ he1

/-- State threaded through the pattern searches: the extractor plus ghost
traces of the candidates extracted after the bounds guard, the candidates
stored into the processed set (the LoadOrStore store case), and the
candidates passed to the validator. -/
structure SearchSt where
  ex : V4Extractor
  extracted : List (List Nat)
  stored : List (List Nat)
  validated : List (List Nat)

/-- The candidate slice memory[idx+off : idx+off+n], taken after the bounds
guard of SearchKey / SearchImgKey. -/
def candAt (memory : List Nat) (idx : Nat) (off : Int) (n : Nat) : List Nat :=
  (memory.drop ((idx : Int) + off).toNat).take n

/-- Record a fresh raw-key candidate: store its hex in processedDataKeys and
note it in the extracted, stored and validated traces. -/
def recordData (st : SearchSt) (cand : List Nat) : SearchSt :=
  { st with
      ex := { st.ex with processedDataKeys := st.ex.processedDataKeys ++ [hexEncode cand] },
      extracted := st.extracted ++ [cand],
      stored := st.stored ++ [cand],
      validated := st.validated ++ [cand] }

/-- Record a fresh image-key candidate in processedImgKeys and the traces. -/
def recordImg (st : SearchSt) (cand : List Nat) : SearchSt :=
  { st with
      ex := { st.ex with processedImgKeys := st.ex.processedImgKeys ++ [hexEncode cand] },
      extracted := st.extracted ++ [cand],
      stored := st.stored ++ [cand],
      validated := st.validated ++ [cand] }

/-- One offset of the raw-key search (lines 271-300 of v4.go): bounds guard,
consecutive-zero-byte filter, processedDataKeys dedup, then validation against
the primary DB header; a validated candidate is returned as its hex. -/
def dataCandStep (memory : List Nat) (idx : Nat) (off : Int) (st : SearchSt) :
    Option String × SearchSt :=
  if (idx : Int) + off < 0 ∨ (memory.length : Int) < (idx : Int) + off + 32 then (none, st)
  else if hasZZ (candAt memory idx off 32) then
    (none, { st with extracted := st.extracted ++ [candAt memory idx off 32] })
  else if st.ex.processedDataKeys.contains (hexEncode (candAt memory idx off 32)) then
    (none, { st with extracted := st.extracted ++ [candAt memory idx off 32] })
  else if st.ex.validator.Validate (candAt memory idx off 32) then
    (some (hexEncode (candAt memory idx off 32)), recordData st (candAt memory idx off 32))
  else (none, recordData st (candAt memory idx off 32))

/-- One offset of the image-key search (lines 342-370 of v4.go): the same
shape with 16-byte candidates, processedImgKeys and ValidateImgKey. -/
def imgCandStep (memory : List Nat) (idx : Nat) (off : Int) (st : SearchSt) :
    Option String × SearchSt :=
  if (idx : Int) + off < 0 ∨ (memory.length : Int) < (idx : Int) + off + 16 then (none, st)
  else if hasZZ (candAt memory idx off 16) then
    (none, { st with extracted := st.extracted ++ [candAt memory idx off 16] })
  else if st.ex.processedImgKeys.contains (hexEncode (candAt memory idx off 16)) then
    (none, { st with extracted := st.extracted ++ [candAt memory idx off 16] })
  else if st.ex.validator.ValidateImgKey (candAt memory idx off 16) then
    (some (hexEncode (candAt memory idx off 16)), recordImg st (candAt memory idx off 16))
  else (none, recordImg st (candAt memory idx off 16))

/-- Try each offset of a pattern for a raw-key candidate at an anchor. -/
def tryOffsetsData (memory : List Nat) (idx : Nat) :
    List Int → SearchSt → Option String × SearchSt
  | [], st => (none, st)
  | off :: rest, st =>
    match dataCandStep memory idx off st with
    | (some h, st1) => (some h, st1)
    | (none, st1) => tryOffsetsData memory idx rest st1

/-- Try each offset of a pattern for an image-key candidate at an anchor. -/
def tryOffsetsImg (memory : List Nat) (idx : Nat) :
    List Int → SearchSt → Option String × SearchSt
  | [], st => (none, st)
  | off :: rest, st =>
    match imgCandStep memory idx off st with
    | (some h, st1) => (some h, st1)
    | (none, st1) => tryOffsetsImg memory idx rest st1

/-- The per-pattern loop of SearchKey: cancellation poll, last occurrence of
the pattern in memory[:idx], the zero-pattern alignment to just after the last
non-zero byte, the offsets, then resume below the anchor (index -= 1 with a
break when it would go negative).  Fuel bounds the iteration count; the anchor
strictly decreases, so memory.length + 1 is always enough. -/
def searchKeyLoop (cancelled : Bool) (memory : List Nat) (pat : KeyPatternInfo)
    (zeroPattern : Bool) : Nat → Nat → SearchSt → Option String × SearchSt
  | 0, _, st => (none, st)
  | fuel + 1, idx, st =>
    if cancelled then (none, st)
    else
      match lastIndexOf (memory.take idx) pat.Pattern with
      | none => (none, st)
      | some i =>
        match (if zeroPattern then (lastIndexNonZero (memory.take i)).map (fun j => j + 1)
               else some i) with
        | none => (none, st)
        | some idx2 =>
          match tryOffsetsData memory idx2 pat.Offsets st with
          | (some h, st1) => (some h, st1)
          | (none, st1) =>
            if idx2 = 0 then (none, st1)
            else searchKeyLoop cancelled memory pat zeroPattern fuel (idx2 - 1) st1

/-- The per-pattern loop of SearchImgKey: the image patterns always align to
just after the last non-zero byte, so the resumption index j never goes
negative and the loop only stops at a failed pattern or alignment search. -/
def searchImgLoop (cancelled : Bool) (memory : List Nat) (pat : KeyPatternInfo) :
    Nat → Nat → SearchSt → Option String × SearchSt
  | 0, _, st => (none, st)
  | fuel + 1, idx, st =>
    if cancelled then (none, st)
    else
      match lastIndexOf (memory.take idx) pat.Pattern with
      | none => (none, st)
      | some i =>
        match lastIndexNonZero (memory.take i) with
        | none => (none, st)
        | some j =>
          match tryOffsetsImg memory (j + 1) pat.Offsets st with
          | (some h, st1) => (some h, st1)
          | (none, st1) => searchImgLoop cancelled memory pat fuel ((j + 1) - 1) st1

/-- SearchKey over the pattern table: each pattern scanned from the end of the
chunk; the zero pattern is recognised by comparison against 16 zero bytes. -/
def searchKeyPatterns (cancelled : Bool) (memory : List Nat) :
    List KeyPatternInfo → SearchSt → Option String × SearchSt
  | [], st => (none, st)
  | kp :: rest, st =>
    match searchKeyLoop cancelled memory kp (kp.Pattern == zeros16)
        (memory.length + 1) memory.length st with
    | (some h, st1) => (some h, st1)
    | (none, st1) => searchKeyPatterns cancelled memory rest st1

/-- SearchImgKey over the image pattern table. -/
def searchImgPatterns (cancelled : Bool) (memory : List Nat) :
    List KeyPatternInfo → SearchSt → Option String × SearchSt
  | [], st => (none, st)
  | kp :: rest, st =>
    match searchImgLoop cancelled memory kp (memory.length + 1) memory.length st with
    | (some h, st1) => (some h, st1)
    | (none, st1) => searchImgPatterns cancelled memory rest st1

/-- SearchKey of v4.go (instrumented): none models the ("", false) return. -/
def SearchKeyT (cancelled : Bool) (e : V4Extractor) (memory : List Nat) :
    Option String × SearchSt :=
  searchKeyPatterns cancelled memory e.dataKeyPatterns ⟨e, [], [], []⟩

/-- SearchImgKey of v4.go (instrumented): none models ("", false). -/
def SearchImgKeyT (cancelled : Bool) (e : V4Extractor) (memory : List Nat) :
    Option String × SearchSt :=
  searchImgPatterns cancelled memory e.imgKeyPatterns ⟨e, [], [], []⟩

/-- The candidate slice has full length exactly when the bounds guard passed. -/
theorem candAt_length (memory : List Nat) (idx : Nat) (off : Int) (n : Nat)
    (h : ¬((idx : Int) + off < 0 ∨ (memory.length : Int) < (idx : Int) + off + n)) :
    (candAt memory idx off n).length = n := by
  unfold candAt
  rw [List.length_take, List.length_drop]
  push_neg at h
  omega

/-- Invariant of the raw-key search state relative to the starting processed
set: stored and validated candidates are free of consecutive zero bytes, every
processedDataKeys entry is either original or the hex of a stored candidate,
and every extracted candidate has the full 32 bytes. -/
def dataSearchInv (base : List String) (st : SearchSt) : Prop :=
  st.stored.all (fun k => !(hasZZ k)) = true ∧
  st.validated.all (fun k => !(hasZZ k)) = true ∧
  st.ex.processedDataKeys.all
    (fun h => base.contains h || st.stored.any (fun k => hexEncode k == h)) = true ∧
  st.extracted.all (fun k => k.length == 32) = true

/-- Invariant of the image-key search state: every extracted candidate has the
full 16 bytes. -/
def imgSearchInv (st : SearchSt) : Prop :=
  st.extracted.all (fun k => k.length == 16) = true

/-- One raw-key offset step preserves the search invariant. -/
theorem dataCandStep_inv (memory : List Nat) (idx : Nat) (off : Int)
    (base : List String) (st : SearchSt) (h : dataSearchInv base st) :
    dataSearchInv base (dataCandStep memory idx off st).2 := by
  obtain ⟨h1, h2, h3, h4⟩ := h
  unfold dataCandStep
  by_cases hb : ((idx : Int) + off < 0 ∨ (memory.length : Int) < (idx : Int) + off + 32)
  · rw [if_pos hb]
    exact ⟨h1, h2, h3, h4⟩
  · rw [if_neg hb]
    have hlen : (candAt memory idx off 32).length = 32 := candAt_length memory idx off 32 hb
    have h4x : (st.extracted ++ [candAt memory idx off 32]).all (fun k => k.length == 32) = true := by
      rw [List.all_append, h4]
      simp [hlen]
    by_cases hz : hasZZ (candAt memory idx off 32) = true
    · rw [if_pos hz]
      exact ⟨h1, h2, h3, h4x⟩
    · rw [if_neg hz]
      by_cases hp : st.ex.processedDataKeys.contains (hexEncode (candAt memory idx off 32)) = true
      · rw [if_pos hp]
        exact ⟨h1, h2, h3, h4x⟩
      · rw [if_neg hp]
        have hzf : hasZZ (candAt memory idx off 32) = false := by
          cases hx : hasZZ (candAt memory idx off 32) with
          | false => rfl
          | true => exact absurd hx hz
        have hrec : dataSearchInv base (recordData st (candAt memory idx off 32)) := by
          refine ⟨?_, ?_, ?_, ?_⟩
          · show (st.stored ++ [candAt memory idx off 32]).all (fun k => !(hasZZ k)) = true
            rw [List.all_append, h1]
            simp [hzf]
          · show (st.validated ++ [candAt memory idx off 32]).all (fun k => !(hasZZ k)) = true
            rw [List.all_append, h2]
            simp [hzf]
          · show (st.ex.processedDataKeys ++ [hexEncode (candAt memory idx off 32)]).all
                (fun h => base.contains h ||
                  (st.stored ++ [candAt memory idx off 32]).any (fun k => hexEncode k == h)) = true
            rw [List.all_eq_true]
            intro x hx
            rcases List.mem_append.mp hx with hx | hx
            · have hold := List.all_eq_true.mp h3 x hx
              simp only [Bool.or_eq_true] at hold
              rcases hold with hc | ha
              · rw [hc]
                simp
              · rw [List.any_append, ha]
                simp
            · rw [List.mem_singleton.mp hx]
              have : (st.stored ++ [candAt memory idx off 32]).any
                  (fun k => hexEncode k == hexEncode (candAt memory idx off 32)) = true := by
                rw [List.any_eq_true]
                exact ⟨candAt memory idx off 32,
                  List.mem_append_right _ (List.mem_singleton.mpr rfl), by simp⟩
              rw [this]
              simp
          · show (st.extracted ++ [candAt memory idx off 32]).all (fun k => k.length == 32) = true
            exact h4x
        by_cases hv : st.ex.validator.Validate (candAt memory idx off 32) = true
        · rw [if_pos hv]
          exact hrec
        · rw [if_neg hv]
          exact hrec

/-- One image-key offset step preserves the image search invariant. -/
theorem imgCandStep_inv (memory : List Nat) (idx : Nat) (off : Int)
    (st : SearchSt) (h : imgSearchInv st) : imgSearchInv (imgCandStep memory idx off st).2 := by
  unfold imgCandStep
  by_cases hb : ((idx : Int) + off < 0 ∨ (memory.length : Int) < (idx : Int) + off + 16)
  · rw [if_pos hb]
    exact h
  · rw [if_neg hb]
    have hlen : (candAt memory idx off 16).length = 16 := candAt_length memory idx off 16 hb
    have h4x : (st.extracted ++ [candAt memory idx off 16]).all (fun k => k.length == 16) = true := by
      rw [List.all_append, h]
      simp [hlen]
    by_cases hz : hasZZ (candAt memory idx off 16) = true
    · rw [if_pos hz]
      exact h4x
    · rw [if_neg hz]
      by_cases hp : st.ex.processedImgKeys.contains (hexEncode (candAt memory idx off 16)) = true
      · rw [if_pos hp]
        exact h4x
      · rw [if_neg hp]
        by_cases hv : st.ex.validator.ValidateImgKey (candAt memory idx off 16) = true
        · rw [if_pos hv]
          exact h4x
        · rw [if_neg hv]
          exact h4x

/-- The offsets loop preserves the raw-key search invariant. -/
theorem tryOffsetsData_inv (memory : List Nat) (idx : Nat) (base : List String) :
    ∀ (offs : List Int) (st : SearchSt), dataSearchInv base st →
      dataSearchInv base (tryOffsetsData memory idx offs st).2 := by
  intro offs
  induction offs with
  | nil => intro st h; exact h
  | cons off rest ih =>
    intro st h
    unfold tryOffsetsData
    have hstep := dataCandStep_inv memory idx off base st h
    cases hs : dataCandStep memory idx off st with
    | mk o st1 =>
      rw [hs] at hstep
      cases o with
      | some hx => exact hstep
      | none => exact ih st1 hstep

/-- The offsets loop preserves the image search invariant. -/
theorem tryOffsetsImg_inv (memory : List Nat) (idx : Nat) :
    ∀ (offs : List Int) (st : SearchSt), imgSearchInv st →
      imgSearchInv (tryOffsetsImg memory idx offs st).2 := by
  intro offs
  induction offs with
  | nil => intro st h; exact h
  | cons off rest ih =>
    intro st h
    unfold tryOffsetsImg
    have hstep := imgCandStep_inv memory idx off st h
    cases hs : imgCandStep memory idx off st with
    | mk o st1 =>
      rw [hs] at hstep
      cases o with
      | some hx => exact hstep
      | none => exact ih st1 hstep

/-- The per-pattern raw-key loop preserves the search invariant. -/
theorem searchKeyLoop_inv (cancelled : Bool) (memory : List Nat) (pat : KeyPatternInfo)
    (zeroPattern : Bool) (base : List String) :
    ∀ (fuel idx : Nat) (st : SearchSt), dataSearchInv base st →
      dataSearchInv base (searchKeyLoop cancelled memory pat zeroPattern fuel idx st).2 := by
  intro fuel
  induction fuel with
  | zero => intro idx st h; exact h
  | succ fuel ih =>
    intro idx st h
    unfold searchKeyLoop
    by_cases hc : cancelled = true
    · rw [if_pos hc]
      exact h
    · rw [if_neg hc]
      cases lastIndexOf (memory.take idx) pat.Pattern with
      | none => exact h
      | some i =>
        dsimp only
        cases (if zeroPattern then (lastIndexNonZero (memory.take i)).map (fun j => j + 1)
               else some i) with
        | none => exact h
        | some idx2 =>
          dsimp only
          have hoff := tryOffsetsData_inv memory idx2 base pat.Offsets st h
          cases hs : tryOffsetsData memory idx2 pat.Offsets st with
          | mk o st1 =>
            rw [hs] at hoff
            cases o with
            | some hx => exact hoff
            | none =>
              dsimp only
              by_cases h0 : idx2 = 0
              · rw [if_pos h0]
                exact hoff
              · rw [if_neg h0]
                exact ih (idx2 - 1) st1 hoff

/-- The per-pattern image loop preserves the image search invariant. -/
theorem searchImgLoop_inv (cancelled : Bool) (memory : List Nat) (pat : KeyPatternInfo) :
    ∀ (fuel idx : Nat) (st : SearchSt), imgSearchInv st →
      imgSearchInv (searchImgLoop cancelled memory pat fuel idx st).2 := by
  intro fuel
  induction fuel with
  | zero => intro idx st h; exact h
  | succ fuel ih =>
    intro idx st h
    unfold searchImgLoop
    by_cases hc : cancelled = true
    · rw [if_pos hc]
      exact h
    · rw [if_neg hc]
      cases lastIndexOf (memory.take idx) pat.Pattern with
      | none => exact h
      | some i =>
        dsimp only
        cases lastIndexNonZero (memory.take i) with
        | none => exact h
        | some j =>
          dsimp only
          have hoff := tryOffsetsImg_inv memory (j + 1) pat.Offsets st h
          cases hs : tryOffsetsImg memory (j + 1) pat.Offsets st with
          | mk o st1 =>
            rw [hs] at hoff
            cases o with
            | some hx => exact hoff
            | none => exact ih ((j + 1) - 1) st1 hoff

/-- The pattern-table loop preserves the raw-key search invariant. -/
theorem searchKeyPatterns_inv (cancelled : Bool) (memory : List Nat) (base : List String) :
    ∀ (pats : List KeyPatternInfo) (st : SearchSt), dataSearchInv base st →
      dataSearchInv base (searchKeyPatterns cancelled memory pats st).2 := by
  intro pats
  induction pats with
  | nil => intro st h; exact h
  | cons kp rest ih =>
    intro st h
    unfold searchKeyPatterns
    have hl := searchKeyLoop_inv cancelled memory kp (kp.Pattern == zeros16) base
      (memory.length + 1) memory.length st h
    cases hs : searchKeyLoop cancelled memory kp (kp.Pattern == zeros16)
        (memory.length + 1) memory.length st with
    | mk o st1 =>
      rw [hs] at hl
      cases o with
      | some hx => exact hl
      | none => exact ih st1 hl

/-- The pattern-table loop preserves the image search invariant. -/
theorem searchImgPatterns_inv (cancelled : Bool) (memory : List Nat) :
    ∀ (pats : List KeyPatternInfo) (st : SearchSt), imgSearchInv st →
      imgSearchInv (searchImgPatterns cancelled memory pats st).2 := by
  intro pats
  induction pats with
  | nil => intro st h; exact h
  | cons kp rest ih =>
    intro st h
    unfold searchImgPatterns
    have hl := searchImgLoop_inv cancelled memory kp (memory.length + 1) memory.length st h
    cases hs : searchImgLoop cancelled memory kp (memory.length + 1) memory.length st with
    | mk o st1 =>
      rw [hs] at hl
      cases o with
      | some hx => exact hl
      | none => exact ih st1 hl

/-- The invariant holds for the fresh state SearchKey starts from. -/
theorem dataSearchInv_init (e : V4Extractor) :
    dataSearchInv e.processedDataKeys ⟨e, [], [], []⟩ := by
  refine ⟨rfl, rfl, ?_, rfl⟩
  rw [List.all_eq_true]
  intro x hx
  have : e.processedDataKeys.contains x = true := List.elem_eq_true_of_mem hx
  rw [this]
  simp

/-- C6: in the raw-key search, a 32-byte candidate window containing two
consecutive zero bytes is rejected: every candidate SearchKey stores into
processedDataKeys and every candidate it passes to the validator is free of
consecutive zero bytes, and every entry of the final processedDataKeys is
either an original entry or the hex of such a stored candidate. -/
theorem searchKey_rejects_consecutive_zero_candidates (cancelled : Bool)
    (e : V4Extractor) (memory : List Nat) :
    (SearchKeyT cancelled e memory).2.stored.all (fun k => !(hasZZ k)) = true ∧
    (SearchKeyT cancelled e memory).2.validated.all (fun k => !(hasZZ k)) = true ∧
    (SearchKeyT cancelled e memory).2.ex.processedDataKeys.all
      (fun h => e.processedDataKeys.contains h ||
        (SearchKeyT cancelled e memory).2.stored.any (fun k => hexEncode k == h)) = true := by
  have h := searchKeyPatterns_inv cancelled memory e.processedDataKeys
    e.dataKeyPatterns ⟨e, [], [], []⟩ (dataSearchInv_init e)
  exact ⟨h.1, h.2.1, h.2.2.1⟩

/-- C9: SearchKey and SearchImgKey extract a candidate only when the bounds
guard holds, so every extracted slice is wholly inside the chunk: raw-key
candidates have the full 32 bytes and image-key candidates the full 16, for
every chunk (however short), extractor state and context.  Both functions are
total by construction and yield none (the ("", false) return) when nothing
validates. -/
theorem search_candidate_extraction_in_bounds (cancelled : Bool)
    (e : V4Extractor) (memory : List Nat) :
    (SearchKeyT cancelled e memory).2.extracted.all (fun k => k.length == 32) = true ∧
    (SearchImgKeyT cancelled e memory).2.extracted.all (fun k => k.length == 16) = true := by
  constructor
  · exact (searchKeyPatterns_inv cancelled memory e.processedDataKeys
      e.dataKeyPatterns ⟨e, [], [], []⟩ (dataSearchInv_init e)).2.2.2
  · exact searchImgPatterns_inv cancelled memory e.imgKeyPatterns ⟨e, [], [], []⟩ rfl

/-- The error surfaced by Extract when it finds nothing (errors.ErrNoValidKey)
and the other distinguished extraction errors. -/
inductive ExtractErr where
  | noValidKey
  | weChatOffline
  | sipEnabled
  | validatorNotSet
deriving DecidableEq, Repr

/-- Lines 139-157 of v4.go: the aggregation that runs when the result channel
is drained (all workers finished).  derivedKeys is the listing of
foundDerivedKeys collected by Range; finalRawDataKey and finalImgKey are the
last raw/image keys received from workers (empty when none arrived). -/
def extractReturn (finalDataKey finalImgKey : String) : Except ExtractErr (String × String) :=
  if finalDataKey ≠ "" ∨ finalImgKey ≠ "" then Except.ok (finalDataKey, finalImgKey)
  else Except.error ExtractErr.noValidKey

/-- The finalDataKey assignment (lines 146-152) followed by the return test
(lines 154-157). -/
def extractFinish (derivedKeys : List String) (finalRawDataKey finalImgKey : String) :
    Except ExtractErr (String × String) :=
  extractReturn
    (if 0 < derivedKeys.length then "derived:" ++ String.intercalate "," derivedKeys
     else if finalRawDataKey ≠ "" then finalRawDataKey else "")
    finalImgKey

/-- C1 counterexample: when no raw key and no derived key were found but an
image key was, Extract does not return NoValidKey — it returns the image key
with no error (line 154 of v4.go tests finalImgKey too). -/
theorem extract_imgOnly_not_noValidKey :
    extractFinish [] "" "aabb" = Except.ok ("", "aabb") ∧
    extractFinish [] "" "aabb" ≠ Except.error ExtractErr.noValidKey := by
  constructor
  · rfl
  · intro h
    exact Except.noConfusion (h.symm.trans rfl)

/-- C1 (amended): Extract returns NoValidKey exactly when, after all workers
finish, no derived key, no raw key and also no image key was discovered; a
lone image key is returned with a nil error instead. -/
theorem extract_noValidKey_when_no_keys (derivedKeys : List String)
    (finalRawDataKey finalImgKey : String)
    (hd : derivedKeys = []) (hr : finalRawDataKey = "") (hi : finalImgKey = "") :
    extractFinish derivedKeys finalRawDataKey finalImgKey =
      Except.error ExtractErr.noValidKey := by
  subst hd hr hi
  rfl

/-- Witness for the amended C1 at the all-empty input. -/
theorem extract_noValidKey_when_no_keys_witness :
    extractFinish [] "" "" = Except.error ExtractErr.noValidKey :=
  extract_noValidKey_when_no_keys [] "" "" rfl rfl rfl

/-- C5: when Extract completes by draining the result channel, the data key it
returns is "derived:" followed by the found derived-key hexes joined by ","
whenever foundDerivedKeys is non-empty, and otherwise the raw key hex found by
a worker, if any. -/
theorem extract_dataKey_aggregation (derivedKeys : List String)
    (finalRawDataKey finalImgKey : String)
    (h : derivedKeys ≠ [] ∨ finalRawDataKey ≠ "") :
    extractFinish derivedKeys finalRawDataKey finalImgKey =
      Except.ok
        (if derivedKeys.isEmpty then finalRawDataKey
         else "derived:" ++ String.intercalate "," derivedKeys, finalImgKey) := by
  have hne : ("derived:" ++ String.intercalate "," derivedKeys) ≠ "" := by
    intro hx
    have h8 := congrArg String.length hx
    rw [String.length_append] at h8
    have hd8 : ("derived:" : String).length = 8 := rfl
    have h0 : ("" : String).length = 0 := rfl
    omega
  rcases h with h | h
  · have hlen : 0 < derivedKeys.length := List.length_pos.mpr h
    have hie : derivedKeys.isEmpty = false := by
      simp [List.isEmpty_iff, h]
    unfold extractFinish extractReturn
    rw [if_pos hlen, if_pos (Or.inl hne), hie]
    simp
  · unfold extractFinish extractReturn
    by_cases hd : 0 < derivedKeys.length
    · have hne2 : derivedKeys ≠ [] := by
        intro hx
        rw [hx] at hd
        exact absurd hd (by simp)
      have hie : derivedKeys.isEmpty = false := by
        simp [List.isEmpty_iff, hne2]
      rw [if_pos hd, if_pos (Or.inl hne), hie]
      simp
    · have hdnil : derivedKeys = [] := by
        cases derivedKeys with
        | nil => rfl
        | cons a as => exact absurd (by simp) hd
      subst hdnil
      rw [if_neg hd, if_pos h, if_pos (Or.inl h)]
      rfl

/-- Witness for C5 on a concrete derived-key set and on a raw-only run. -/
theorem extract_dataKey_aggregation_witness :
    extractFinish ["aa", "bb"] "" "cc" = Except.ok ("derived:aa,bb", "cc") := by
  have h := extract_dataKey_aggregation ["aa", "bb"] "" "cc" (Or.inl (by decide))
  simpa using h
